import Mathlib

/-!
Shallow embedding of `storage/local/frankenstein.go` (the frankenstein
ingester): the inverted index with its sort-merge helpers, the in-memory
series with the append path, and the flush path.  Go maps are embedded as
association lists, Go slices as `List`, `uint64` fingerprints as `Nat`
(only order and equality are used), `model.Time` (int64 milliseconds) and
`model.SampleValue` as `Int`.  Mutation is embedded as explicit state
passing; panics / `error` returns as `Option`.
-/

namespace Frankenstein

/-- 64-bit series fingerprint (`model.Fingerprint`); only `<`, `≤`, `=`
are used by the embedded code, so `Nat` suffices. -/
abbrev Fingerprint := Nat

abbrev LabelName := String
abbrev LabelValue := String

/-- `model.Metric` / label set: a Go map from label name to label value,
embedded as an association list (callers keep the keys duplicate-free,
as a Go map does by construction). -/
abbrev Metric := List (LabelName × LabelValue)

/-- Association-list lookup, embedding a Go map read `m[k]`. -/
def alookup {α β : Type} [DecidableEq α] : List (α × β) → α → Option β
  | [], _ => none
  | p :: rest, k => if p.1 = k then some p.2 else alookup rest k

/-- Association-list update, embedding a Go map write `m[k] = v`: replace
the entry for `k`, or append one. -/
def aput {α β : Type} [DecidableEq α] : List (α × β) → α → β → List (α × β)
  | [], k, v => [(k, v)]
  | p :: rest, k, v => if p.1 = k then (k, v) :: rest else p :: aput rest k v

/-- Association-list removal, embedding a Go map `delete(m, k)`. -/
def adel {α β : Type} [DecidableEq α] (l : List (α × β)) (k : α) :
    List (α × β) :=
  l.filter (fun p => decide (p.1 ≠ k))

/-- Inner map of the inverted index: `labelValue → sorted fingerprints`. -/
abbrev ValueMap := List (LabelValue × List Fingerprint)

/-- `invertedIndex.idx`: `labelName → labelValue → sorted fingerprints`. -/
abbrev InvertedIndex := List (LabelName × ValueMap)

/-- `sort.Search(len(fingerprints), func(i int) bool { return fingerprints[i] >= fp })`:
on a sorted list this is the first index whose element is `≥ fp`
(`findIdx` returns the length when no element qualifies, as `sort.Search`
does). -/
def search (fingerprints : List Fingerprint) (fp : Fingerprint) : Nat :=
  fingerprints.findIdx (fun x => decide (fp ≤ x))

/-- The insertion idiom of `invertedIndex.add`:
`fingerprints = append(fingerprints, 0); copy(fingerprints[j+1:], fingerprints[j:]); fingerprints[j] = fp`,
i.e. insert `fp` at position `j`. -/
def insertAt (l : List Fingerprint) (j : Nat) (fp : Fingerprint) :
    List Fingerprint :=
  l.take j ++ fp :: l.drop j

/-- The removal idiom of `invertedIndex.delete`:
`fingerprints[:j+copy(fingerprints[j:], fingerprints[j+1:])]`, i.e. remove
the element at position `j` (a no-op when `j ≥ len`). -/
def removeAt (l : List Fingerprint) (j : Nat) : List Fingerprint :=
  l.take j ++ l.drop (j + 1)

/-- `invertedIndex.add(metric, fp)`: for each label pair, binary-search the
per-value fingerprint list and insert `fp` at the found position.  Note the
source inserts unconditionally: there is no check that `fp` is absent. -/
def indexAdd (idx : InvertedIndex) (metric : Metric) (fp : Fingerprint) :
    InvertedIndex :=
  metric.foldl
    (fun idx nv =>
      let values := (alookup idx nv.1).getD []
      let fingerprints := (alookup values nv.2).getD []
      let j := search fingerprints fp
      let fingerprints := insertAt fingerprints j fp
      aput idx nv.1 (aput values nv.2 fingerprints))
    idx

/-- `invertedIndex.delete(metric, fp)`: for each label pair, binary-search
the per-value list and remove the element at the found position, pruning
empty value lists and empty name maps.  Note the source removes the element
at the search position without checking that it equals `fp`. -/
def indexDelete (idx : InvertedIndex) (metric : Metric) (fp : Fingerprint) :
    InvertedIndex :=
  metric.foldl
    (fun idx nv =>
      match alookup idx nv.1 with
      | none => idx
      | some values =>
        match alookup values nv.2 with
        | none => idx
        | some fingerprints =>
          let j := search fingerprints fp
          let fingerprints := removeAt fingerprints j
          let values :=
            if fingerprints.length = 0 then adel values nv.2
            else aput values nv.2 fingerprints
          if values.length = 0 then adel idx nv.1
          else aput idx nv.1 values)
    idx

/-- `merge(a, b)`: sort-merge of two fingerprint lists (the source assumes
they are sorted, duplicate-free and disjoint).  When `a[i] ≥ b[j]` the
element of `b` is taken. -/
def merge : List Fingerprint → List Fingerprint → List Fingerprint
  | [], b => b
  | a, [] => a
  | x :: xs, y :: ys =>
    if x < y then x :: merge xs (y :: ys) else y :: merge (x :: xs) ys
termination_by a b => a.length + b.length

/-- The loop of `intersect` for a non-nil first argument: emit `a[i]` when
`a[i] == b[j]`, then advance `i` if `a[i] < b[j]`, else advance `j`. -/
def intersectLists : List Fingerprint → List Fingerprint → List Fingerprint
  | x :: xs, y :: ys =>
    (if x = y then [x] else []) ++
      (if x < y then intersectLists xs (y :: ys)
       else intersectLists (x :: xs) ys)
  | _, _ => []
termination_by a b => a.length + b.length

/-- `intersect(a, b)` with the sentinel-nil convention: a `nil` first
argument means "no constraint yet" and returns `b` unchanged. -/
def intersect (a : Option (List Fingerprint)) (b : List Fingerprint) :
    List Fingerprint :=
  match a with
  | none => b
  | some a => intersectLists a b

/-- A label matcher (`metric.LabelMatcher`): a label name together with its
value predicate `Match`. -/
structure LabelMatcher where
  name : LabelName
  matchValue : LabelValue → Bool

/-- The per-matcher union of `invertedIndex.lookup`: fold `merge` over the
fingerprint lists of all values accepted by the matcher. -/
def matcherUnion (m : LabelMatcher) (values : ValueMap) : List Fingerprint :=
  values.foldl
    (fun toIntersect vf =>
      if m.matchValue vf.1 then merge toIntersect vf.2 else toIntersect)
    []

/-- The matcher loop of `invertedIndex.lookup`: intersect the per-matcher
unions, returning early with `nil` when a matcher's name is absent from the
index or the running intersection becomes empty. -/
def lookupLoop (idx : InvertedIndex) :
    List LabelMatcher → Option (List Fingerprint) → List Fingerprint
  | [], intersection => intersection.getD []
  | m :: ms, intersection =>
    match alookup idx m.name with
    | none => []
    | some values =>
      let toIntersect := matcherUnion m values
      let inter := intersect intersection toIntersect
      if inter.length = 0 then [] else lookupLoop idx ms (some inter)

/-- `invertedIndex.lookup(matchers)`: `nil` for zero matchers, otherwise the
intersection loop seeded with the sentinel `nil`. -/
def indexLookup (idx : InvertedIndex) (matchers : List LabelMatcher) :
    List Fingerprint :=
  if matchers.length = 0 then [] else lookupLoop idx matchers none

/-- Element of the index at a name/value slot (empty when absent). -/
def listAt (idx : InvertedIndex) (n : LabelName) (v : LabelValue) :
    List Fingerprint :=
  (alookup ((alookup idx n).getD []) v).getD []

/-- A label set matches a matcher when it carries the matcher's name with a
value accepted by the matcher's predicate (`metric.LabelMatcher.Match` on
the value stored in the map). -/
def matchesMetric (ls : Metric) (m : LabelMatcher) : Bool :=
  match alookup ls m.name with
  | some v => m.matchValue v
  | none => false

/-- Well-formedness of the inverted index: every per-value fingerprint list
is strictly sorted (hence duplicate-free). -/
def indexWF (idx : InvertedIndex) : Prop :=
  ∀ nvs ∈ idx, ∀ vfs ∈ nvs.2, List.Pairwise (· < ·) vfs.2

/-- `fp` occurs in no per-value list of the index (the caller-uniqueness
discipline under which `invertedIndex.add` is called in the source). -/
def fpFresh (idx : InvertedIndex) (fp : Fingerprint) : Prop :=
  ∀ nvs ∈ idx, ∀ vfs ∈ nvs.2, fp ∉ vfs.2

/-- `model.Earliest`: the int64 minimum, the initial `lastTime` of a fresh
series and the sentinel for an unpopulated chunk `lastTime`. -/
def Earliest : Int := -(2 ^ 63)

/-- Modelled from the spec: the chunk codec (external collaborator, §1,
§6) stores sample pairs in a fixed-capacity container; the pair list
stands for the compressed contents. -/
structure ChunkData where
  pairs : List (Int × Int)
deriving DecidableEq

/-- Modelled from the spec: a chunk is full once it reaches its fixed
capacity (`chunkLen` bytes in the source codec; a fixed pair count here). -/
def chunkMaxPairs : Nat := 1024

/-- `chunkDesc`: a chunk with its cached `chunkFirstTime` / `chunkLastTime`
(the latter `Earliest` until populated on close). -/
structure ChunkDesc where
  c : ChunkData
  chunkFirstTime : Int
  chunkLastTime : Int
deriving DecidableEq

/-- Modelled from the spec: `chunkDesc.maybePopulateLastTime` populates the
cached `chunkLastTime` from the chunk's last sample when unset (§3: "lastTime
is set on close (or on demand via maybePopulateLastTime)"). -/
def maybePopulateLastTime (cd : ChunkDesc) : ChunkDesc :=
  if cd.chunkLastTime = Earliest then
    { cd with chunkLastTime := ((cd.c.pairs.getLast?).map Prod.fst).getD Earliest }
  else cd

/-- Modelled from the spec: `chunkDesc.lastTime()` returns the cached value
when populated, else reads it from the chunk contents. -/
def chunkDescLastTime (cd : ChunkDesc) : Int :=
  if cd.chunkLastTime = Earliest then
    ((cd.c.pairs.getLast?).map Prod.fst).getD Earliest
  else cd.chunkLastTime

/-- `memorySeries`: the per-series in-memory state. -/
structure MemorySeries where
  metric : Metric
  chunkDescs : List ChunkDesc
  lastTime : Int
  lastSampleValue : Int
  lastSampleValueSet : Bool
  headChunkClosed : Bool
  headChunkUsedByIterator : Bool
deriving DecidableEq

/-- Modelled from the spec: `newMemorySeries(metric, nil, time.Time{})`
(vendored `memory_series.go`, not under `src/`) registers the label set
with no chunk descriptors ("no chunks yet — initial chunk materialized on
first append", §4.6) and `lastTime` still at `model.Earliest`. -/
def newMemorySeries (m : Metric) : MemorySeries :=
  { metric := m, chunkDescs := [], lastTime := Earliest, lastSampleValue := 0,
    lastSampleValueSet := false, headChunkClosed := false,
    headChunkUsedByIterator := false }

/-- Modelled from the spec: `memorySeries.firstTime()` is the first chunk's
start time. -/
def seriesFirstTime (s : MemorySeries) : Int :=
  ((s.chunkDescs.head?).map (·.chunkFirstTime)).getD Earliest

/-- A fresh open head chunk holding one sample pair. -/
def openNewChunk (ts v : Int) : ChunkDesc :=
  { c := { pairs := [(ts, v)] }, chunkFirstTime := ts, chunkLastTime := Earliest }

/-- Modelled from the spec: `memorySeries.add` (§4.4 step 4, vendored
`memory_series.go`, not under `src/`): append the pair to the open head
chunk, materializing the first chunk or — when the head is closed or full —
closing it and opening a new one; then update `lastTime`,
`lastSampleValue`, `lastSampleValueSet`. -/
def seriesAdd (s : MemorySeries) (ts v : Int) : MemorySeries :=
  let descs :=
    match s.chunkDescs.getLast? with
    | none => [openNewChunk ts v]
    | some head =>
      if s.headChunkClosed then
        s.chunkDescs ++ [openNewChunk ts v]
      else if chunkMaxPairs ≤ head.c.pairs.length then
        s.chunkDescs.dropLast ++ [maybePopulateLastTime head, openNewChunk ts v]
      else
        s.chunkDescs.dropLast ++
          [{ head with c := { pairs := head.c.pairs ++ [(ts, v)] } }]
  { s with
    chunkDescs := descs
    headChunkClosed := false
    lastTime := ts
    lastSampleValue := v
    lastSampleValueSet := true }

/-- `userState`: one tenant's series map and inverted index (the locker and
mapper govern concurrency and collision resolution and are not part of the
sequential state). -/
structure UserState where
  fpToSeries : List (Fingerprint × MemorySeries)
  index : InvertedIndex
deriving DecidableEq

/-- The ingester's counters and gauges touched by the embedded paths:
`ingested_samples_total`, the `out_of_order_samples_total` vector keyed by
discard reason, `chunk_store_failures_total` and the `memory_chunks`
gauge. -/
structure Counters where
  ingestedSamples : Nat
  discardedSamples : List (String × Nat)
  chunkStoreFailures : Nat
  memoryChunks : Int
deriving DecidableEq

/-- Increment one labelled counter of a counter vector. -/
def incCounterVec (c : List (String × Nat)) (reason : String) :
    List (String × Nat) :=
  aput c reason ((alookup c reason).getD 0 + 1)

/-- Read one labelled counter of a counter vector. -/
def getCounterVec (c : List (String × Nat)) (reason : String) : Nat :=
  (alookup c reason).getD 0

/-- Modelled from the spec: the discard-reason constant for a conflicting
duplicate timestamp (`duplicateSample` of the vendored `storage.go`, not
under `src/`; the spec names the reason `duplicate_sample_for_timestamp`). -/
def duplicateSample : String := "duplicate_sample_for_timestamp"

/-- Modelled from the spec: the discard-reason constant for a timestamp
before `lastTime` (`outOfOrderTimestamp` of the vendored `storage.go`, not
under `src/`; the spec names the reason `sample_out_of_order`). -/
def outOfOrderTimestamp : String := "sample_out_of_order"

/-- The ingester state touched by the sequential append/flush paths: the
shutdown flag, a tenant's state and the counters. -/
structure IngState where
  stopped : Bool
  userState : UserState
  counters : Counters
deriving DecidableEq

/-- `model.Sample`: a label set with a timestamp and a value. -/
structure Sample where
  metric : Metric
  timestamp : Int
  value : Int
deriving DecidableEq

/-- The errors of the append path (`fmt.Errorf("ingester stopping")`,
`ErrDuplicateSampleForTimestamp`, `ErrOutOfOrderSample`). -/
inductive AppendError where
  | ingesterStopping
  | duplicateSampleForTimestamp
  | outOfOrderSample
deriving DecidableEq

/-- The empty-value label stripping at the top of `Ingester.append`. -/
def stripEmptyLabels (m : Metric) : Metric :=
  m.filter (fun p => decide (p.2 ≠ ""))

/-- `userState.getOrCreateSeries(metric)`: resolve the canonical
fingerprint (`fpOf` stands for `FastFingerprint` composed with
`mapper.mapFP`, modelled from the spec as a deterministic function; locking
is elided), return the existing series or register a new empty one in the
series map and the inverted index. -/
def getOrCreateSeries (fpOf : Metric → Fingerprint) (u : UserState)
    (metric : Metric) : Fingerprint × MemorySeries × UserState :=
  let fp := fpOf metric
  match alookup u.fpToSeries fp with
  | some series => (fp, series, u)
  | none =>
    let series := newMemorySeries metric
    (fp, series,
      { u with
        fpToSeries := aput u.fpToSeries fp series
        index := indexAdd u.index metric fp })

/-- `Ingester.append(ctx, sample)`: strip empty labels, fail when stopping,
resolve the series, then the duplicate / out-of-order ladder, else append
to the head chunk, adjusting `memory_chunks` by the chunk-count delta and
counting the ingested sample. -/
def append (fpOf : Metric → Fingerprint) (st : IngState) (sample : Sample) :
    IngState × Option AppendError :=
  let sample := { sample with metric := stripEmptyLabels sample.metric }
  if st.stopped then (st, some .ingesterStopping)
  else
    let r := getOrCreateSeries fpOf st.userState sample.metric
    let fp := r.1
    let series := r.2.1
    let st := { st with userState := r.2.2 }
    if sample.timestamp = series.lastTime then
      if sample.timestamp = series.lastTime ∧ series.lastSampleValueSet = true ∧
          sample.value = series.lastSampleValue then
        (st, none)
      else
        ({ st with
            counters := { st.counters with
              discardedSamples :=
                incCounterVec st.counters.discardedSamples duplicateSample } },
          some .duplicateSampleForTimestamp)
    else if sample.timestamp < series.lastTime then
      ({ st with
          counters := { st.counters with
            discardedSamples :=
              incCounterVec st.counters.discardedSamples outOfOrderTimestamp } },
        some .outOfOrderSample)
    else
      let prevNumChunks := series.chunkDescs.length
      let series := seriesAdd series sample.timestamp sample.value
      ({ st with
          userState := { st.userState with
            fpToSeries := aput st.userState.fpToSeries fp series }
          counters := { st.counters with
            memoryChunks := st.counters.memoryChunks +
              ((series.chunkDescs.length : Int) - (prevNumChunks : Int))
            ingestedSamples := st.counters.ingestedSamples + 1 } },
        none)

/-- `Ingester.Append(ctx, samples)`: append each sample in order, stopping
at the first failure and returning its error (earlier appends keep their
effect on the state). -/
def Append (fpOf : Metric → Fingerprint) (st : IngState) :
    List Sample → IngState × Option AppendError
  | [] => (st, none)
  | s :: rest =>
    match append fpOf st s with
    | (st', some e) => (st', some e)
    | (st', none) => Append fpOf st' rest

/-- Go negative-capable list indexing for `samplesForRange`'s
`chunkDescs[len-1]`: `none` is the out-of-bounds panic. -/
def getI {α : Type} (l : List α) (i : Int) : Option α :=
  if i < 0 then none else l.get? i.toNat

/-- Modelled from the spec: `rangeValues(iterator, interval)` (vendored
helper, not under `src/`) emits the chunk's samples within the closed
interval (§4.5 step 5). -/
def rangeValues (cd : ChunkDesc) (f t : Int) : List (Int × Int) :=
  cd.c.pairs.filter (fun p => decide (f ≤ p.1) && decide (p.1 ≤ t))

/-- The extraction loop of `samplesForRange`: concatenate the in-interval
samples of chunks `lo` through `hi`. -/
def extractRange (s : MemorySeries) (f t : Int) (lo hi : Nat) :
    List (Int × Int) :=
  (List.range' lo (hi + 1 - lo)).foldl
    (fun acc i => acc ++ (((s.chunkDescs.get? i).map (rangeValues · f t)).getD []))
    []

/-- `samplesForRange(s, from, through)`: binary-search the chunk whose
start time exceeds `from` (resp. `through`), handle the all-chunks-before
case by reading the last chunk's `lastTime` — an indexing of
`chunkDescs[len-1]` that is out of bounds when `chunkDescs` is empty
(`none` here, a panic in the source) — then step `fromIdx` back by one and
clamp `throughIdx`, and extract the interval. -/
def samplesForRange (s : MemorySeries) (f t : Int) :
    Option (List (Int × Int)) :=
  let n := s.chunkDescs.length
  let fromIdx := s.chunkDescs.findIdx (fun cd => decide (f < cd.chunkFirstTime))
  let throughIdx := s.chunkDescs.findIdx (fun cd => decide (t < cd.chunkFirstTime))
  let lo := if fromIdx > 0 then fromIdx - 1 else fromIdx
  let hi := if throughIdx = n then n - 1 else throughIdx
  if fromIdx = n then
    match getI s.chunkDescs ((n : Int) - 1) with
    | none => none
    | some lastDesc =>
      if chunkDescLastTime lastDesc < f then some []
      else some (extractRange s f t lo hi)
  else some (extractRange s f t lo hi)

/-- The wire chunk record assembled by `flushChunks` (`frank.Chunk`); the
marshalled byte buffer is represented by the chunk's sample pairs. -/
structure WireChunk where
  id : String
  From : Int
  Through : Int
  metric : Metric
  data : List (Int × Int)
deriving DecidableEq

/-- The errors of the flush path: chunk marshalling failure or a failed
`chunkStore.Put`. -/
inductive FlushError where
  | marshalFailed
  | putFailed
deriving DecidableEq

/-- The wire-chunk assembly loop of `flushChunks`: marshal each chunk
(`marshalOk` stands for the external codec's `marshalToBuf` succeeding),
with `id = "<fp>:<firstTime>:<lastTime>"`. -/
def buildWireChunks (marshalOk : ChunkData → Bool) (fp : Fingerprint)
    (metric : Metric) : List ChunkDesc → Option (List WireChunk)
  | [] => some []
  | cd :: rest =>
    if marshalOk cd.c then
      (buildWireChunks marshalOk fp metric rest).map
        (fun ws =>
          { id := toString fp ++ ":" ++ toString cd.chunkFirstTime ++ ":" ++
              toString cd.chunkLastTime,
            From := cd.chunkFirstTime, Through := cd.chunkLastTime,
            metric := metric, data := cd.c.pairs } :: ws)
    else none

/-- `Ingester.flushChunks`: build the wire chunks (failing on a marshal
error) and hand them to `chunkStore.Put` (`put` stands for the external
store, an opaque collaborator; `false` is a `Put` error). -/
def flushChunks (marshalOk : ChunkData → Bool)
    (put : List WireChunk → Bool) (fp : Fingerprint) (metric : Metric)
    (chunks : List ChunkDesc) : Option FlushError :=
  match buildWireChunks marshalOk fp metric chunks with
  | none => some .marshalFailed
  | some wires => if put wires then none else some .putFailed

/-- The head-closing step of `flushSeries`: mark the head closed, clear the
iterator flag and populate the head chunk's `lastTime`
(`series.head().maybePopulateLastTime()`; the source indexes
`chunkDescs[len-1]`, so this is only meaningful for a non-empty
`chunkDescs`, as every theorem below assumes). -/
def closeHead (s : MemorySeries) : MemorySeries :=
  match s.chunkDescs.getLast? with
  | none => { s with headChunkClosed := true, headChunkUsedByIterator := false }
  | some head =>
    { s with
      headChunkClosed := true
      headChunkUsedByIterator := false
      chunkDescs := s.chunkDescs.dropLast ++ [maybePopulateLastTime head] }

/-- The force-close decision of `flushSeries`: close the head when
`immediate` or the series' first chunk is older than `MaxChunkAge`
(`now - series.firstTime() > MaxChunkAge`). -/
def flushCloseStep (maxChunkAge now : Int) (immediate : Bool)
    (series : MemorySeries) : MemorySeries :=
  if immediate = true ∨ maxChunkAge < now - seriesFirstTime series then
    closeHead series
  else series

/-- The ship-set decision of `flushSeries`: all chunks when the head is
closed, else all but the head. -/
def chunksToFlush (series : MemorySeries) : List ChunkDesc :=
  if series.headChunkClosed then series.chunkDescs
  else series.chunkDescs.dropLast

/-- `Ingester.flushSeries`: close the head when due, pick the chunks to
ship, ship them via `flushChunks` — on error add the batch size to
`chunk_store_failures_total` and return the error — and on success drop
`chunkDescs[len(chunks)-1:]`'s complement, i.e. assign
`series.chunkDescs = series.chunkDescs[len(chunks)-1:]` exactly as the
source does, subtract the batch from `memory_chunks`, and remove a
now-empty series from the series map and the inverted index.  The
write-backs through the series map stand for the source's in-place pointer
mutation of the series the map holds. -/
def flushSeries (marshalOk : ChunkData → Bool) (put : List WireChunk → Bool)
    (maxChunkAge now : Int) (st : IngState) (fp : Fingerprint)
    (series : MemorySeries) (immediate : Bool) :
    IngState × Option FlushError :=
  let series := flushCloseStep maxChunkAge now immediate series
  let chunks := chunksToFlush series
  let st := { st with userState :=
      { st.userState with fpToSeries := aput st.userState.fpToSeries fp series } }
  if chunks.length = 0 then (st, none)
  else
    match flushChunks marshalOk put fp series.metric chunks with
    | some e =>
      ({ st with counters :=
          { st.counters with chunkStoreFailures :=
              st.counters.chunkStoreFailures + chunks.length } },
        some e)
    | none =>
      let series := { series with
        chunkDescs := series.chunkDescs.drop (chunks.length - 1) }
      let counters := { st.counters with
        memoryChunks := st.counters.memoryChunks - (chunks.length : Int) }
      let u :=
        if series.chunkDescs.length = 0 then
          { fpToSeries := adel st.userState.fpToSeries fp,
            index := indexDelete st.userState.index series.metric fp }
        else
          { st.userState with
            fpToSeries := aput st.userState.fpToSeries fp series }
      ({ st with userState := u, counters := counters }, none)

/-! ### Association-list lemmas -/

theorem alookup_mem {α β : Type} [DecidableEq α] {l : List (α × β)} {k : α}
    {v : β} (h : alookup l k = some v) : (k, v) ∈ l := by
  induction l with
  | nil => simp [alookup] at h
  | cons p rest ih =>
    rw [alookup] at h
    by_cases hpk : p.1 = k
    · rw [if_pos hpk] at h
      have hp : p = (k, v) := by
        cases p
        simp_all
      exact List.mem_cons.2 (Or.inl hp.symm)
    · rw [if_neg hpk] at h
      exact List.mem_cons_of_mem _ (ih h)

theorem alookup_eq_of_mem {α β : Type} [DecidableEq α] {l : List (α × β)}
    (hnd : (l.map Prod.fst).Nodup) {k : α} {v : β} (h : (k, v) ∈ l) :
    alookup l k = some v := by
  induction l with
  | nil => simp at h
  | cons p rest ih =>
    rw [List.map_cons, List.nodup_cons] at hnd
    rw [alookup]
    rcases List.mem_cons.1 h with h | h
    · rw [← h]
      simp
    · have hk : k ∈ rest.map Prod.fst := List.mem_map.2 ⟨(k, v), h, rfl⟩
      have hpk : p.1 ≠ k := fun he => hnd.1 (he ▸ hk)
      rw [if_neg hpk]
      exact ih hnd.2 h

theorem alookup_aput {α β : Type} [DecidableEq α] (l : List (α × β))
    (k : α) (v : β) (k' : α) :
    alookup (aput l k v) k' = if k' = k then some v else alookup l k' := by
  induction l with
  | nil =>
    simp only [aput, alookup]
    by_cases h : k = k'
    · simp [h]
    · rw [if_neg h, if_neg (fun he : k' = k => h he.symm)]
  | cons p rest ih =>
    by_cases hpk : p.1 = k
    · by_cases hk : k' = k
      · simp [aput, alookup, hpk, hk]
      · have h1 : ¬(k = k') := fun he => hk he.symm
        have h2 : ¬(p.1 = k') := by rw [hpk]; exact h1
        simp [aput, alookup, hpk, hk, h1, h2]
    · by_cases hpk' : p.1 = k'
      · have h3 : ¬(k' = k) := fun he => hpk (by rw [hpk', he])
        simp [aput, alookup, hpk, hpk', h3]
      · simp [aput, alookup, hpk, hpk', ih]

theorem mem_aput {α β : Type} [DecidableEq α] {l : List (α × β)} {k : α}
    {v : β} {q : α × β} (h : q ∈ aput l k v) : q ∈ l ∨ q = (k, v) := by
  induction l with
  | nil => simp [aput] at h; right; exact h
  | cons p rest ih =>
    rw [aput] at h
    by_cases hpk : p.1 = k
    · rw [if_pos hpk] at h
      rcases List.mem_cons.1 h with h | h
      · right; exact h
      · left; exact List.mem_cons_of_mem _ h
    · rw [if_neg hpk] at h
      rcases List.mem_cons.1 h with h | h
      · left; exact h ▸ List.mem_cons_self _ _
      · rcases ih h with h | h
        · left; exact List.mem_cons_of_mem _ h
        · right; exact h

theorem mem_adel {α β : Type} [DecidableEq α] {l : List (α × β)} {k : α}
    {q : α × β} (h : q ∈ adel l k) : q ∈ l :=
  (List.mem_filter.1 h).1

/-! ### Search, insertion and removal lemmas -/

theorem search_nil (fp : Fingerprint) : search [] fp = 0 := rfl

theorem search_cons (x : Fingerprint) (xs : List Fingerprint)
    (fp : Fingerprint) :
    search (x :: xs) fp = if fp ≤ x then 0 else search xs fp + 1 := by
  by_cases h : fp ≤ x <;> simp [search, List.findIdx_cons, h]

theorem insertAt_zero (l : List Fingerprint) (fp : Fingerprint) :
    insertAt l 0 fp = fp :: l := by
  simp [insertAt]

theorem insertAt_cons (x : Fingerprint) (xs : List Fingerprint) (j : Nat)
    (fp : Fingerprint) :
    insertAt (x :: xs) (j + 1) fp = x :: insertAt xs j fp := by
  simp [insertAt]

theorem mem_insertAt (l : List Fingerprint) (j : Nat) (fp z : Fingerprint) :
    z ∈ insertAt l j fp ↔ z = fp ∨ z ∈ l := by
  simp only [insertAt, List.mem_append, List.mem_cons]
  constructor
  · rintro (h | h | h)
    · exact Or.inr (List.take_subset j l h)
    · exact Or.inl h
    · exact Or.inr (List.drop_subset j l h)
  · rintro (h | h)
    · exact Or.inr (Or.inl h)
    · have : z ∈ l.take j ++ l.drop j := by rw [List.take_append_drop]; exact h
      rcases List.mem_append.1 this with h | h
      · exact Or.inl h
      · exact Or.inr (Or.inr h)

theorem insertAt_search_pairwise (l : List Fingerprint) (fp : Fingerprint)
    (hl : l.Pairwise (· < ·)) (hfp : fp ∉ l) :
    (insertAt l (search l fp) fp).Pairwise (· < ·) := by
  induction l with
  | nil => simp [search, insertAt]
  | cons x xs ih =>
    rw [search_cons]
    rw [List.pairwise_cons] at hl
    by_cases h : fp ≤ x
    · have hne : fp ≠ x := fun he => hfp (he ▸ List.mem_cons_self _ _)
      rw [if_pos h, insertAt_zero]
      refine List.pairwise_cons.2 ⟨?_, List.pairwise_cons.2 hl⟩
      intro z hz
      rcases List.mem_cons.1 hz with rfl | hz
      · exact lt_of_le_of_ne h hne
      · exact lt_of_le_of_lt (le_of_lt (lt_of_le_of_ne h hne)) (hl.1 z hz)
    · have hx : x < fp := lt_of_not_le h
      rw [if_neg h, insertAt_cons]
      refine List.pairwise_cons.2 ⟨?_, ih hl.2 (fun hm => hfp (List.mem_cons_of_mem _ hm))⟩
      intro z hz
      rcases (mem_insertAt xs (search xs fp) fp z).1 hz with rfl | hz
      · exact hx
      · exact hl.1 z hz

theorem removeAt_sublist (l : List Fingerprint) (j : Nat) :
    List.Sublist (removeAt l j) l := by
  unfold removeAt
  conv_rhs => rw [← List.take_append_drop j l]
  apply List.Sublist.append_left
  have h1 : List.drop 1 (List.drop j l) = List.drop (j + 1) l := by
    rw [List.drop_drop]
  rw [← h1]
  exact List.drop_sublist 1 (List.drop j l)

theorem removeAt_pairwise (l : List Fingerprint) (j : Nat)
    (hl : l.Pairwise (· < ·)) : (removeAt l j).Pairwise (· < ·) :=
  hl.sublist (removeAt_sublist l j)

/-! ### Sort-merge lemmas -/

theorem merge_nil (b : List Fingerprint) : merge [] b = b := by
  simp [merge]

theorem merge_cons_nil (x : Fingerprint) (xs : List Fingerprint) :
    merge (x :: xs) [] = x :: xs := by
  simp [merge]

theorem merge_cons (x : Fingerprint) (xs : List Fingerprint)
    (y : Fingerprint) (ys : List Fingerprint) :
    merge (x :: xs) (y :: ys) =
      if x < y then x :: merge xs (y :: ys) else y :: merge (x :: xs) ys := by
  simp [merge]

theorem intersectLists_nil (b : List Fingerprint) :
    intersectLists [] b = [] := by
  simp [intersectLists]

theorem intersectLists_cons_nil (x : Fingerprint) (xs : List Fingerprint) :
    intersectLists (x :: xs) [] = [] := by
  simp [intersectLists]

theorem intersectLists_cons (x : Fingerprint) (xs : List Fingerprint)
    (y : Fingerprint) (ys : List Fingerprint) :
    intersectLists (x :: xs) (y :: ys) =
      (if x = y then [x] else []) ++
        (if x < y then intersectLists xs (y :: ys)
         else intersectLists (x :: xs) ys) := by
  simp [intersectLists]

theorem mem_merge (a : List Fingerprint) :
    ∀ (b : List Fingerprint) (z : Fingerprint),
      z ∈ merge a b ↔ z ∈ a ∨ z ∈ b := by
  induction a with
  | nil => intro b z; rw [merge_nil]; simp
  | cons x xs iha =>
    intro b
    induction b with
    | nil => intro z; rw [merge_cons_nil]; simp
    | cons y ys ihb =>
      intro z
      rw [merge_cons]
      by_cases h : x < y
      · rw [if_pos h]
        simp only [List.mem_cons, iha (y :: ys) z, List.mem_cons]
        tauto
      · rw [if_neg h]
        simp only [List.mem_cons, ihb z, List.mem_cons]
        tauto

theorem merge_pairwise (a : List Fingerprint) :
    ∀ b : List Fingerprint, a.Pairwise (· < ·) → b.Pairwise (· < ·) →
      (∀ z ∈ a, z ∉ b) → (merge a b).Pairwise (· < ·) := by
  induction a with
  | nil => intro b _ hb _; rw [merge_nil]; exact hb
  | cons x xs iha =>
    intro b
    induction b with
    | nil => intro ha _ _; rw [merge_cons_nil]; exact ha
    | cons y ys ihb =>
      intro ha hb hd
      have ha' := List.pairwise_cons.1 ha
      have hb' := List.pairwise_cons.1 hb
      rw [merge_cons]
      by_cases h : x < y
      · rw [if_pos h]
        refine List.pairwise_cons.2 ⟨?_, iha (y :: ys) ha'.2 hb
          (fun z hz => hd z (List.mem_cons_of_mem _ hz))⟩
        intro z hz
        rcases (mem_merge xs (y :: ys) z).1 hz with hz | hz
        · exact ha'.1 z hz
        · rcases List.mem_cons.1 hz with rfl | hz
          · exact h
          · exact lt_trans h (hb'.1 z hz)
      · have hxny : x ≠ y := fun he =>
          hd x (List.mem_cons_self _ _) (List.mem_cons.2 (Or.inl he))
        have hyx : y < x :=
          lt_of_le_of_ne (le_of_not_lt h) (fun he => hxny he.symm)
        rw [if_neg h]
        refine List.pairwise_cons.2 ⟨?_, ihb ha hb'.2
          (fun z hz hz2 => hd z hz (List.mem_cons_of_mem _ hz2))⟩
        intro z hz
        rcases (mem_merge (x :: xs) ys z).1 hz with hz | hz
        · rcases List.mem_cons.1 hz with rfl | hz
          · exact hyx
          · exact lt_trans hyx (ha'.1 z hz)
        · exact hb'.1 z hz

theorem mem_intersectLists (a : List Fingerprint) :
    ∀ b : List Fingerprint, a.Pairwise (· < ·) → b.Pairwise (· < ·) →
      ∀ z, z ∈ intersectLists a b ↔ z ∈ a ∧ z ∈ b := by
  induction a with
  | nil => intro b _ _ z; rw [intersectLists_nil]; simp
  | cons x xs iha =>
    intro b
    induction b with
    | nil => intro _ _ z; rw [intersectLists_cons_nil]; simp
    | cons y ys ihb =>
      intro ha hb z
      have ha' := List.pairwise_cons.1 ha
      have hb' := List.pairwise_cons.1 hb
      rw [intersectLists_cons]
      rcases lt_trichotomy x y with h | h | h
      · have hne : x ≠ y := ne_of_lt h
        have hxm : x ∉ y :: ys := by
          intro hm
          rcases List.mem_cons.1 hm with he | hm
          · exact hne he
          · exact absurd (lt_trans h (hb'.1 x hm)) (lt_irrefl x)
        rw [if_neg hne, if_pos h, List.nil_append,
          iha (y :: ys) ha'.2 hb z]
        constructor
        · rintro ⟨hz1, hz2⟩
          exact ⟨List.mem_cons_of_mem _ hz1, hz2⟩
        · rintro ⟨hz1, hz2⟩
          rcases List.mem_cons.1 hz1 with rfl | hz1
          · exact absurd hz2 hxm
          · exact ⟨hz1, hz2⟩
      · subst h
        rw [if_pos rfl, if_neg (lt_irrefl x), List.singleton_append]
        constructor
        · intro hz
          rcases List.mem_cons.1 hz with rfl | hz
          · exact ⟨List.mem_cons_self _ _, List.mem_cons_self _ _⟩
          · have := (ihb ha hb'.2 z).1 hz
            exact ⟨this.1, List.mem_cons_of_mem _ this.2⟩
        · rintro ⟨hz1, hz2⟩
          rcases List.mem_cons.1 hz2 with rfl | hz2
          · exact List.mem_cons_self _ _
          · exact List.mem_cons_of_mem _ ((ihb ha hb'.2 z).2 ⟨hz1, hz2⟩)
      · have hne : x ≠ y := ne_of_gt h
        have hym : y ∉ x :: xs := by
          intro hm
          rcases List.mem_cons.1 hm with he | hm
          · exact hne he.symm
          · exact absurd (lt_trans h (ha'.1 y hm)) (lt_irrefl y)
        rw [if_neg hne, if_neg (fun hlt => absurd (lt_trans h hlt) (lt_irrefl y)),
          List.nil_append, ihb ha hb'.2 z]
        constructor
        · rintro ⟨hz1, hz2⟩
          exact ⟨hz1, List.mem_cons_of_mem _ hz2⟩
        · rintro ⟨hz1, hz2⟩
          rcases List.mem_cons.1 hz2 with rfl | hz2
          · exact absurd hz1 hym
          · exact ⟨hz1, hz2⟩

theorem intersectLists_pairwise (a : List Fingerprint) :
    ∀ b : List Fingerprint, a.Pairwise (· < ·) → b.Pairwise (· < ·) →
      (intersectLists a b).Pairwise (· < ·) := by
  induction a with
  | nil => intro b _ _; rw [intersectLists_nil]; exact List.Pairwise.nil
  | cons x xs iha =>
    intro b
    induction b with
    | nil => intro _ _; rw [intersectLists_cons_nil]; exact List.Pairwise.nil
    | cons y ys ihb =>
      intro ha hb
      have ha' := List.pairwise_cons.1 ha
      have hb' := List.pairwise_cons.1 hb
      rw [intersectLists_cons]
      rcases lt_trichotomy x y with h | h | h
      · rw [if_neg (ne_of_lt h), if_pos h, List.nil_append]
        exact iha (y :: ys) ha'.2 hb
      · subst h
        rw [if_pos rfl, if_neg (lt_irrefl x), List.singleton_append]
        refine List.pairwise_cons.2 ⟨?_, ihb ha hb'.2⟩
        intro z hz
        have := (mem_intersectLists (x :: xs) ys ha hb'.2 z).1 hz
        exact hb'.1 z this.2
      · rw [if_neg (ne_of_gt h),
          if_neg (fun hlt => absurd (lt_trans h hlt) (lt_irrefl y)),
          List.nil_append]
        exact ihb ha hb'.2

/-! ### Index well-formedness preservation -/

theorem fpFresh_listAt {idx : InvertedIndex} {fp : Fingerprint}
    (h : fpFresh idx fp) (n : LabelName) (v : LabelValue) :
    fp ∉ listAt idx n v := by
  intro hm
  unfold listAt at hm
  cases h1 : alookup idx n with
  | none => rw [h1] at hm; simp [alookup] at hm
  | some values =>
    rw [h1, Option.getD_some] at hm
    cases h2 : alookup values v with
    | none => rw [h2] at hm; simp at hm
    | some l =>
      rw [h2, Option.getD_some] at hm
      exact h (n, values) (alookup_mem h1) (v, l) (alookup_mem h2) hm

theorem indexWF_aput (idx : InvertedIndex) (n : LabelName) (values : ValueMap)
    (hwf : indexWF idx) (hv : ∀ vfs ∈ values, List.Pairwise (· < ·) vfs.2) :
    indexWF (aput idx n values) := by
  intro nvs hmem vfs hvfs
  rcases mem_aput hmem with h | h
  · exact hwf nvs h vfs hvfs
  · rw [h] at hvfs
    exact hv vfs hvfs

theorem indexWF_adel (idx : InvertedIndex) (n : LabelName)
    (hwf : indexWF idx) : indexWF (adel idx n) :=
  fun nvs h vfs hv => hwf nvs (mem_adel h) vfs hv

theorem valueMap_wf_of_alookup {idx : InvertedIndex} {n : LabelName}
    {values : ValueMap} (hwf : indexWF idx) (h : alookup idx n = some values) :
    ∀ vfs ∈ values, List.Pairwise (· < ·) vfs.2 :=
  fun vfs hv => hwf (n, values) (alookup_mem h) vfs hv

theorem valueMap_wf_getD {idx : InvertedIndex} (hwf : indexWF idx)
    (n : LabelName) :
    ∀ vfs ∈ (alookup idx n).getD [], List.Pairwise (· < ·) vfs.2 := by
  cases h : alookup idx n with
  | none => simp
  | some values => simpa using valueMap_wf_of_alookup hwf h

theorem fpList_wf_getD {values : ValueMap}
    (hv : ∀ vfs ∈ values, List.Pairwise (· < ·) vfs.2) (v : LabelValue) :
    List.Pairwise (· < ·) ((alookup values v).getD []) := by
  cases h : alookup values v with
  | none => simp
  | some l => simpa using hv (v, l) (alookup_mem h)

theorem indexAdd_wf (fp : Fingerprint) :
    ∀ (metric : Metric) (idx : InvertedIndex),
      indexWF idx → (metric.map Prod.fst).Nodup →
      (∀ nv ∈ metric, fp ∉ listAt idx nv.1 nv.2) →
      indexWF (indexAdd idx metric fp) := by
  intro metric
  induction metric with
  | nil => intro idx hwf _ _; simpa [indexAdd] using hwf
  | cons nv rest ih =>
    intro idx hwf hnd hfresh
    rw [List.map_cons, List.nodup_cons] at hnd
    simp only [indexAdd, List.foldl_cons]
    have hstep := ih
    simp only [indexAdd] at hstep
    apply hstep
    · -- the updated index is well-formed
      apply indexWF_aput _ _ _ hwf
      intro vfs hvfs
      rcases mem_aput hvfs with h | h
      · exact valueMap_wf_getD hwf nv.1 vfs h
      · rw [h]
        exact insertAt_search_pairwise _ fp
          (fpList_wf_getD (valueMap_wf_getD hwf nv.1) nv.2)
          (hfresh nv (List.mem_cons_self _ _))
    · exact hnd.2
    · -- the untouched slots of the remaining (distinct) label names
      intro nv' hnv'
      have hne : nv'.1 ≠ nv.1 := by
        intro he
        exact hnd.1 (he ▸ List.mem_map.2 ⟨nv', hnv', rfl⟩)
      unfold listAt
      rw [alookup_aput, if_neg hne]
      exact hfresh nv' (List.mem_cons_of_mem _ hnv')

theorem indexDelete_wf (fp : Fingerprint) :
    ∀ (metric : Metric) (idx : InvertedIndex), indexWF idx →
      indexWF (indexDelete idx metric fp) := by
  intro metric
  induction metric with
  | nil => intro idx hwf; simpa [indexDelete] using hwf
  | cons nv rest ih =>
    intro idx hwf
    simp only [indexDelete, List.foldl_cons]
    have hstep := ih
    simp only [indexDelete] at hstep
    apply hstep
    cases h1 : alookup idx nv.1 with
    | none => simpa [h1] using hwf
    | some values =>
      cases h2 : alookup values nv.2 with
      | none => simpa [h1, h2] using hwf
      | some fingerprints =>
        simp only [h1, h2]
        have hvals := valueMap_wf_of_alookup hwf h1
        have hrem : List.Pairwise (· < ·)
            (removeAt fingerprints (search fingerprints fp)) :=
          removeAt_pairwise _ _ (hvals (nv.2, fingerprints) (alookup_mem h2))
        have hvals' : ∀ vfs ∈
            (if (removeAt fingerprints (search fingerprints fp)).length = 0
             then adel values nv.2
             else aput values nv.2
               (removeAt fingerprints (search fingerprints fp))),
            List.Pairwise (· < ·) vfs.2 := by
          split
          · intro vfs hv; exact hvals vfs (mem_adel hv)
          · intro vfs hv
            rcases mem_aput hv with h | h
            · exact hvals vfs h
            · rw [h]; exact hrem
        generalize hvv :
          (if (removeAt fingerprints (search fingerprints fp)).length = 0
           then adel values nv.2
           else aput values nv.2
             (removeAt fingerprints (search fingerprints fp))) = values'
        rw [hvv] at hvals'
        split
        · exact indexWF_adel idx nv.1 hwf
        · exact indexWF_aput idx nv.1 values' hwf hvals'

/-! ### Claim C2 -/

/-- C2: deleting a fingerprint that is absent from a per-value list is NOT
a no-op in the source: `invertedIndex.delete` removes the element at the
binary-search position without comparing it to `fp`.  Deleting `fp = 3`
from the index whose only list (under `("a","b")`) is `[5]` — a list not
containing `3` — removes `5` and prunes the now-empty value and name
entries, leaving the index empty instead of unchanged. -/
theorem C2_delete_missing_fp_not_noop :
    listAt [("a", [("b", [5])])] "a" "b" = [5] ∧
    (3 : Fingerprint) ∉ ([5] : List Fingerprint) ∧
    indexDelete [("a", [("b", [5])])] [("a", "b")] 3 = [] := by
  decide

/-! ### Claim C4 -/

/-- C4, counterexample: `invertedIndex.add` is not idempotent.  Adding
fingerprint `5` twice under the same label pair yields the per-value list
`[5, 5]`, which is not strictly sorted and not duplicate-free. -/
theorem C4_counterexample :
    listAt (indexAdd (indexAdd [] [("a", "b")] 5) [("a", "b")] 5) "a" "b"
        = [5, 5] ∧
    ¬ List.Pairwise (· < ·)
        (listAt (indexAdd (indexAdd [] [("a", "b")] 5) [("a", "b")] 5) "a" "b") ∧
    ¬ (listAt (indexAdd (indexAdd [] [("a", "b")] 5) [("a", "b")] 5) "a" "b").Nodup := by
  decide

/-- C4, amended: `add` preserves the strict-sortedness (hence
duplicate-freedom) of every per-value list only under the caller-uniqueness
discipline that the added fingerprint is not already present in the index
(adding a present fingerprint inserts a duplicate); `delete` preserves it
unconditionally.  The metric's label names are distinct, as for a Go map. -/
theorem C4_amended_sort_invariant (idx : InvertedIndex) (m m' : Metric)
    (fp fp' : Fingerprint) (hwf : indexWF idx)
    (hm : (m.map Prod.fst).Nodup) (hfresh : fpFresh idx fp) :
    indexWF (indexAdd idx m fp) ∧ indexWF (indexDelete idx m' fp') :=
  ⟨indexAdd_wf fp m idx hwf hm
      (fun nv _ => fpFresh_listAt hfresh nv.1 nv.2),
    indexDelete_wf fp' m' idx hwf⟩

/-- C4, witness: the amended invariant applied to a concrete index,
metric and fresh fingerprint. -/
theorem C4_witness :
    indexWF [("a", [("b", [2, 7])])] ∧
    (([("a", "b"), ("c", "d")] : Metric).map Prod.fst).Nodup ∧
    fpFresh [("a", [("b", [2, 7])])] 5 ∧
    indexWF (indexAdd [("a", [("b", [2, 7])])] [("a", "b"), ("c", "d")] 5) ∧
    indexWF (indexDelete [("a", [("b", [2, 7])])] [("a", "b")] 2) :=
  ⟨by unfold indexWF; decide, by decide, by unfold fpFresh; decide,
    (C4_amended_sort_invariant [("a", [("b", [2, 7])])] [("a", "b"), ("c", "d")]
      [("a", "b")] 5 2 (by unfold indexWF; decide) (by decide)
      (by unfold fpFresh; decide)).1,
    (C4_amended_sort_invariant [("a", [("b", [2, 7])])] [("a", "b"), ("c", "d")]
      [("a", "b")] 5 2 (by unfold indexWF; decide) (by decide)
      (by unfold fpFresh; decide)).2⟩

/-! ### Claim C9 -/

/-- C9, counterexample: `merge` on two sorted duplicate-free lists that
share an element does not produce a union with each fingerprint exactly
once: `merge [5] [5] = [5, 5]` (the source comment itself assumes "no
duplicate fingerprints between or within the input lists"). -/
theorem C9_counterexample :
    ([5] : List Fingerprint).Pairwise (· < ·) ∧
    merge [5] [5] = [5, 5] ∧ ¬ (merge [5] [5]).Nodup := by
  have h : merge [5] [5] = [5, 5] := by
    rw [merge_cons, if_neg (lt_irrefl 5), merge_cons_nil]
  exact ⟨by decide, h, by rw [h]; decide⟩

/-- C9, amended: for sorted duplicate-free inputs, `intersect` with a
non-nil first argument returns the sorted intersection and
`intersect(nil, b) = b`, exactly as claimed; `merge` returns the sorted
union (each fingerprint exactly once) only under the additional
disjointness the source comment assumes — for lists sharing an element the
exactly-once property fails. -/
theorem C9_amended_merge_intersect (a b : List Fingerprint) (z : Fingerprint)
    (ha : a.Pairwise (· < ·)) (hb : b.Pairwise (· < ·)) :
    ((∀ w ∈ a, w ∉ b) →
      (merge a b).Pairwise (· < ·) ∧ (merge a b).Nodup ∧
      (z ∈ merge a b ↔ z ∈ a ∨ z ∈ b)) ∧
    ((intersect (some a) b).Pairwise (· < ·) ∧
      (z ∈ intersect (some a) b ↔ z ∈ a ∧ z ∈ b)) ∧
    intersect none b = b := by
  refine ⟨fun hd => ?_,
    ⟨intersectLists_pairwise a b ha hb, mem_intersectLists a b ha hb z⟩, rfl⟩
  have hp := merge_pairwise a b ha hb hd
  exact ⟨hp, hp.nodup, mem_merge a b z⟩

/-- C9, witness: the amended statement applied once to the disjoint sorted
lists `[1, 3]` and `[2, 4]` (exercising the merge conjunct) and once to the
overlapping sorted lists `[1, 3]` and `[2, 3]` (exercising the intersect
conjuncts on a non-empty intersection), at fingerprint `3`. -/
theorem C9_witness :
    (([1, 3] : List Fingerprint).Pairwise (· < ·) ∧
      ([2, 4] : List Fingerprint).Pairwise (· < ·) ∧
      ([2, 3] : List Fingerprint).Pairwise (· < ·) ∧
      (∀ w ∈ ([1, 3] : List Fingerprint), w ∉ ([2, 4] : List Fingerprint))) ∧
    ((merge [1, 3] [2, 4]).Pairwise (· < ·) ∧ (merge [1, 3] [2, 4]).Nodup ∧
      (3 ∈ merge [1, 3] [2, 4] ↔ 3 ∈ ([1, 3] : List Fingerprint) ∨
        3 ∈ ([2, 4] : List Fingerprint))) ∧
    ((intersect (some [1, 3]) [2, 3]).Pairwise (· < ·) ∧
      (3 ∈ intersect (some [1, 3]) [2, 3] ↔
        3 ∈ ([1, 3] : List Fingerprint) ∧ 3 ∈ ([2, 3] : List Fingerprint))) ∧
    intersect none [2, 3] = [2, 3] :=
  ⟨⟨by decide, by decide, by decide, by decide⟩,
    (C9_amended_merge_intersect [1, 3] [2, 4] 3 (by decide) (by decide)).1
      (by decide),
    (C9_amended_merge_intersect [1, 3] [2, 3] 3 (by decide) (by decide)).2.1,
    (C9_amended_merge_intersect [1, 3] [2, 3] 3 (by decide) (by decide)).2.2⟩

/-! ### Claim C5: lookup correctness -/

theorem intersect_some (a b : List Fingerprint) :
    intersect (some a) b = intersectLists a b := rfl

theorem intersect_none (b : List Fingerprint) : intersect none b = b := rfl

theorem pairwise_imp_mem {α : Type} {R S : α → α → Prop} :
    ∀ {l : List α}, (∀ a ∈ l, ∀ b ∈ l, R a b → S a b) →
      l.Pairwise R → l.Pairwise S := by
  intro l
  induction l with
  | nil => intro _ _; exact List.Pairwise.nil
  | cons x xs ih =>
    intro himp hp
    have hp' := List.pairwise_cons.1 hp
    refine List.pairwise_cons.2 ⟨?_, ih ?_ hp'.2⟩
    · intro b hb
      exact himp x (List.mem_cons_self _ _) b (List.mem_cons_of_mem _ hb)
        (hp'.1 b hb)
    · intro a ha b hb
      exact himp a (List.mem_cons_of_mem _ ha) b (List.mem_cons_of_mem _ hb)

/-- The semantic hypotheses tying an inverted index to the series it
indexes: per-value lists are sorted; value maps have unique keys; every
indexed fingerprint belongs to a series carrying that label pair
(soundness); every label pair of a series is indexed (completeness);
fingerprints are unique; and label sets have unique names (Go maps). -/
structure IndexReflects (idx : InvertedIndex)
    (series : List (Fingerprint × Metric)) : Prop where
  wf : ∀ nvs ∈ idx, ∀ vfs ∈ nvs.2, List.Pairwise (· < ·) vfs.2
  valueKeysNodup : ∀ nvs ∈ idx, (nvs.2.map Prod.fst).Nodup
  sound : ∀ nvs ∈ idx, ∀ vfs ∈ nvs.2, ∀ fp ∈ vfs.2,
    ∃ p ∈ series, p.1 = fp ∧ (nvs.1, vfs.1) ∈ p.2
  complete : ∀ p ∈ series, ∀ nv ∈ p.2, p.1 ∈ listAt idx nv.1 nv.2
  fpsNodup : (series.map Prod.fst).Nodup
  metricKeysNodup : ∀ p ∈ series, (p.2.map Prod.fst).Nodup

theorem series_unique {idx : InvertedIndex}
    {series : List (Fingerprint × Metric)} (h : IndexReflects idx series) :
    ∀ p ∈ series, ∀ q ∈ series, p.1 = q.1 → p = q := by
  intro p hp q hq he
  by_cases hpq : p = q
  · exact hpq
  · have hpw : series.Pairwise (fun p q => p.1 ≠ q.1) :=
      List.pairwise_map.1 h.fpsNodup
    have hsym : Symmetric (fun p q : Fingerprint × Metric => p.1 ≠ q.1) :=
      fun _ _ hne he2 => hne he2.symm
    exact absurd he (hpw.forall hsym hp hq hpq)

theorem listAt_sound {idx : InvertedIndex}
    {series : List (Fingerprint × Metric)} (h : IndexReflects idx series)
    {n : LabelName} {v : LabelValue} {z : Fingerprint}
    (hm : z ∈ listAt idx n v) : ∃ p ∈ series, p.1 = z ∧ (n, v) ∈ p.2 := by
  unfold listAt at hm
  cases h1 : alookup idx n with
  | none => rw [h1] at hm; simp [alookup] at hm
  | some values =>
    rw [h1, Option.getD_some] at hm
    cases h2 : alookup values v with
    | none => rw [h2] at hm; simp at hm
    | some l =>
      rw [h2, Option.getD_some] at hm
      exact h.sound (n, values) (alookup_mem h1) (v, l) (alookup_mem h2) z hm

theorem matches_false_of_absent {idx : InvertedIndex}
    {series : List (Fingerprint × Metric)} (h : IndexReflects idx series)
    {m : LabelMatcher} (halk : alookup idx m.name = none) :
    ∀ p ∈ series, ¬ matchesMetric p.2 m = true := by
  intro p hp hmt
  cases h2 : alookup p.2 m.name with
  | none => simp [matchesMetric, h2] at hmt
  | some v =>
    have hzl := h.complete p hp (m.name, v) (alookup_mem h2)
    unfold listAt at hzl
    rw [halk] at hzl
    simp [alookup] at hzl

theorem valuesDisjoint {idx : InvertedIndex}
    {series : List (Fingerprint × Metric)} (h : IndexReflects idx series)
    {n : LabelName} {values : ValueMap} (halk : alookup idx n = some values) :
    values.Pairwise (fun e1 e2 => ∀ z ∈ e1.2, z ∉ e2.2) := by
  have hnd : values.Pairwise (fun e1 e2 => e1.1 ≠ e2.1) :=
    List.pairwise_map.1 (h.valueKeysNodup (n, values) (alookup_mem halk))
  apply pairwise_imp_mem ?_ hnd
  intro e1 he1 e2 he2 hne z hz1 hz2
  have hknd := h.valueKeysNodup (n, values) (alookup_mem halk)
  have ha1 : alookup values e1.1 = some e1.2 :=
    alookup_eq_of_mem hknd (by rw [Prod.mk.eta]; exact he1)
  have ha2 : alookup values e2.1 = some e2.2 :=
    alookup_eq_of_mem hknd (by rw [Prod.mk.eta]; exact he2)
  have hzl1 : z ∈ listAt idx n e1.1 := by
    unfold listAt; rw [halk, Option.getD_some, ha1, Option.getD_some]; exact hz1
  have hzl2 : z ∈ listAt idx n e2.1 := by
    unfold listAt; rw [halk, Option.getD_some, ha2, Option.getD_some]; exact hz2
  obtain ⟨p1, hp1, hpe1, hnv1⟩ := listAt_sound h hzl1
  obtain ⟨p2, hp2, hpe2, hnv2⟩ := listAt_sound h hzl2
  have hpq : p1 = p2 := series_unique h p1 hp1 p2 hp2 (by rw [hpe1, hpe2])
  rw [hpq] at hnv1
  have hb1 : alookup p2.2 n = some e1.1 :=
    alookup_eq_of_mem (h.metricKeysNodup p2 hp2) hnv1
  have hb2 : alookup p2.2 n = some e2.1 :=
    alookup_eq_of_mem (h.metricKeysNodup p2 hp2) hnv2
  rw [hb1] at hb2
  exact hne (Option.some.inj hb2)

theorem matcherUnion_go (m : LabelMatcher) :
    ∀ (values : ValueMap) (acc : List Fingerprint),
      acc.Pairwise (· < ·) →
      (∀ vfs ∈ values, List.Pairwise (· < ·) vfs.2) →
      (∀ vfs ∈ values, ∀ z ∈ acc, z ∉ vfs.2) →
      values.Pairwise (fun e1 e2 => ∀ z ∈ e1.2, z ∉ e2.2) →
      (values.foldl
        (fun toIntersect vf =>
          if m.matchValue vf.1 then merge toIntersect vf.2 else toIntersect)
        acc).Pairwise (· < ·) ∧
      ∀ z, z ∈ values.foldl
          (fun toIntersect vf =>
            if m.matchValue vf.1 then merge toIntersect vf.2 else toIntersect)
          acc ↔
        z ∈ acc ∨ ∃ vfs ∈ values, m.matchValue vfs.1 = true ∧ z ∈ vfs.2 := by
  intro values
  induction values with
  | nil =>
    intro acc ha _ _ _
    exact ⟨ha, by simp⟩
  | cons vf rest ih =>
    intro acc ha hv hd hpw
    have hv' := fun e he => hv e (List.mem_cons_of_mem _ he)
    have hpw' := List.pairwise_cons.1 hpw
    simp only [List.foldl_cons]
    by_cases hmv : m.matchValue vf.1 = true
    · rw [if_pos hmv]
      have hacc' : (merge acc vf.2).Pairwise (· < ·) :=
        merge_pairwise acc vf.2 ha (hv vf (List.mem_cons_self _ _))
          (fun z hz => hd vf (List.mem_cons_self _ _) z hz)
      have hdis' : ∀ e ∈ rest, ∀ z ∈ merge acc vf.2, z ∉ e.2 := by
        intro e he z hz
        rcases (mem_merge acc vf.2 z).1 hz with hz | hz
        · exact hd e (List.mem_cons_of_mem _ he) z hz
        · exact hpw'.1 e he z hz
      obtain ⟨hp, hm⟩ := ih (merge acc vf.2) hacc' hv' hdis' hpw'.2
      refine ⟨hp, fun z => ?_⟩
      rw [hm z]
      constructor
      · rintro (h0 | ⟨e, he, hP⟩)
        · rcases (mem_merge acc vf.2 z).1 h0 with h0 | h0
          · exact Or.inl h0
          · exact Or.inr ⟨vf, List.mem_cons_self _ _, hmv, h0⟩
        · exact Or.inr ⟨e, List.mem_cons_of_mem _ he, hP⟩
      · rintro (h0 | ⟨e, he, hP1, hP2⟩)
        · exact Or.inl ((mem_merge acc vf.2 z).2 (Or.inl h0))
        · rcases List.mem_cons.1 he with he1 | he
          · exact Or.inl ((mem_merge acc vf.2 z).2 (Or.inr (he1 ▸ hP2)))
          · exact Or.inr ⟨e, he, hP1, hP2⟩
    · rw [if_neg hmv]
      obtain ⟨hp, hm⟩ := ih acc ha hv'
        (fun e he => hd e (List.mem_cons_of_mem _ he)) hpw'.2
      refine ⟨hp, fun z => ?_⟩
      rw [hm z]
      constructor
      · rintro (h0 | ⟨e, he, hP⟩)
        · exact Or.inl h0
        · exact Or.inr ⟨e, List.mem_cons_of_mem _ he, hP⟩
      · rintro (h0 | ⟨e, he, hP1, hP2⟩)
        · exact Or.inl h0
        · rcases List.mem_cons.1 he with he1 | he
          · exact absurd (he1 ▸ hP1) hmv
          · exact Or.inr ⟨e, he, hP1, hP2⟩

theorem matcherUnion_spec {idx : InvertedIndex}
    {series : List (Fingerprint × Metric)} (h : IndexReflects idx series)
    (m : LabelMatcher) {values : ValueMap}
    (halk : alookup idx m.name = some values) :
    (matcherUnion m values).Pairwise (· < ·) ∧
    ∀ z, z ∈ matcherUnion m values ↔
      ∃ p ∈ series, p.1 = z ∧ matchesMetric p.2 m = true := by
  have hv : ∀ vfs ∈ values, List.Pairwise (· < ·) vfs.2 :=
    valueMap_wf_of_alookup h.wf halk
  obtain ⟨hp, hm⟩ := matcherUnion_go m values [] List.Pairwise.nil hv
    (by simp) (valuesDisjoint h halk)
  unfold matcherUnion
  refine ⟨hp, fun z => ?_⟩
  rw [hm z]
  constructor
  · rintro (h0 | ⟨vfs, hvfs, hmv, hz⟩)
    · simp at h0
    · have hknd := h.valueKeysNodup (m.name, values) (alookup_mem halk)
      have ha2 : alookup values vfs.1 = some vfs.2 :=
        alookup_eq_of_mem hknd (by rw [Prod.mk.eta]; exact hvfs)
      have hzl : z ∈ listAt idx m.name vfs.1 := by
        unfold listAt
        rw [halk, Option.getD_some, ha2, Option.getD_some]
        exact hz
      obtain ⟨p, hp2, hpe, hnv⟩ := listAt_sound h hzl
      refine ⟨p, hp2, hpe, ?_⟩
      have hb : alookup p.2 m.name = some vfs.1 :=
        alookup_eq_of_mem (h.metricKeysNodup p hp2) hnv
      simp [matchesMetric, hb, hmv]
  · rintro ⟨p, hp2, hpe, hmt⟩
    cases h2 : alookup p.2 m.name with
    | none => simp [matchesMetric, h2] at hmt
    | some v =>
      have hmv : m.matchValue v = true := by
        simpa [matchesMetric, h2] using hmt
      have hzl := h.complete p hp2 (m.name, v) (alookup_mem h2)
      unfold listAt at hzl
      rw [halk, Option.getD_some] at hzl
      cases h3 : alookup values v with
      | none => rw [h3] at hzl; simp at hzl
      | some l =>
        rw [h3, Option.getD_some] at hzl
        exact Or.inr ⟨(v, l), alookup_mem h3, hmv, hpe ▸ hzl⟩

theorem lookupLoop_spec {idx : InvertedIndex}
    {series : List (Fingerprint × Metric)} (h : IndexReflects idx series) :
    ∀ (ms : List LabelMatcher) (processed : List LabelMatcher)
      (acc : List Fingerprint), acc.Pairwise (· < ·) →
      (∀ z, z ∈ acc ↔ ∃ p ∈ series, p.1 = z ∧
        ∀ m' ∈ processed, matchesMetric p.2 m' = true) →
      (lookupLoop idx ms (some acc)).Pairwise (· < ·) ∧
      ∀ z, z ∈ lookupLoop idx ms (some acc) ↔ ∃ p ∈ series, p.1 = z ∧
        ∀ m' ∈ processed ++ ms, matchesMetric p.2 m' = true := by
  intro ms
  induction ms with
  | nil =>
    intro processed acc ha hacc
    simp only [lookupLoop, Option.getD_some, List.append_nil]
    exact ⟨ha, hacc⟩
  | cons m ms ih =>
    intro processed acc ha hacc
    simp only [lookupLoop]
    cases halk : alookup idx m.name with
    | none =>
      simp only [halk]
      refine ⟨List.Pairwise.nil, fun z => ?_⟩
      constructor
      · intro hz; simp at hz
      · rintro ⟨p, hp, hpe, hall⟩
        exact absurd (hall m (by simp)) (matches_false_of_absent h halk p hp)
    | some values =>
      simp only [halk, intersect_some]
      obtain ⟨hup, hum⟩ := matcherUnion_spec h m halk
      have hip : (intersectLists acc (matcherUnion m values)).Pairwise (· < ·) :=
        intersectLists_pairwise _ _ ha hup
      have him := mem_intersectLists acc (matcherUnion m values) ha hup
      by_cases hlen : (intersectLists acc (matcherUnion m values)).length = 0
      · rw [if_pos hlen]
        refine ⟨List.Pairwise.nil, fun z => ?_⟩
        rw [List.length_eq_zero] at hlen
        constructor
        · intro hz; simp at hz
        · rintro ⟨p, hp, hpe, hall⟩
          have hz1 : z ∈ acc := (hacc z).2 ⟨p, hp, hpe,
            fun m' hm' => hall m' (List.mem_append_left _ hm')⟩
          have hz2 : z ∈ matcherUnion m values := (hum z).2 ⟨p, hp, hpe,
            hall m (by simp)⟩
          have hz3 := (him z).2 ⟨hz1, hz2⟩
          rw [hlen] at hz3
          simp at hz3
      · rw [if_neg hlen]
        have hacc' : ∀ z, z ∈ intersectLists acc (matcherUnion m values) ↔
            ∃ p ∈ series, p.1 = z ∧
              ∀ m' ∈ processed ++ [m], matchesMetric p.2 m' = true := by
          intro z
          rw [him z, hacc z, hum z]
          constructor
          · rintro ⟨⟨p1, hp1, hpe1, hall1⟩, ⟨p2, hp2, hpe2, hmt2⟩⟩
            have hpq : p1 = p2 :=
              series_unique h p1 hp1 p2 hp2 (by rw [hpe1, hpe2])
            refine ⟨p1, hp1, hpe1, fun m' hm' => ?_⟩
            rcases List.mem_append.1 hm' with hm' | hm'
            · exact hall1 m' hm'
            · rcases List.mem_singleton.1 hm' with rfl
              rw [hpq]
              exact hmt2
          · rintro ⟨p, hp, hpe, hall⟩
            exact ⟨⟨p, hp, hpe,
              fun m' hm' => hall m' (List.mem_append_left _ hm')⟩,
              ⟨p, hp, hpe, hall m (List.mem_append_right _ (by simp))⟩⟩
        obtain ⟨hlp, hlm⟩ := ih (processed ++ [m])
          (intersectLists acc (matcherUnion m values)) hip hacc'
        refine ⟨hlp, fun z => ?_⟩
        rw [hlm z, List.append_assoc, List.singleton_append]

/-- C5: `invertedIndex.lookup(matchers)` of an index that faithfully
reflects a set of series returns, sorted, exactly the fingerprints whose
label set matches every matcher; with zero matchers the result is empty,
and a matcher naming a label absent from the index yields the empty
result (subsumed: no series matches it). -/
theorem C5_lookup_correct (idx : InvertedIndex)
    (series : List (Fingerprint × Metric)) (matchers : List LabelMatcher)
    (fp : Fingerprint) (h : IndexReflects idx series) :
    (indexLookup idx matchers).Pairwise (· < ·) ∧
    (fp ∈ indexLookup idx matchers ↔ matchers ≠ [] ∧
      ∃ p ∈ series, p.1 = fp ∧ ∀ m ∈ matchers, matchesMetric p.2 m = true) := by
  cases matchers with
  | nil => exact ⟨by simp [indexLookup], by simp [indexLookup]⟩
  | cons m ms =>
    simp only [indexLookup, List.length_cons]
    rw [if_neg (Nat.succ_ne_zero _)]
    simp only [lookupLoop]
    cases halk : alookup idx m.name with
    | none =>
      simp only [halk]
      refine ⟨List.Pairwise.nil, ?_⟩
      constructor
      · intro hz; simp at hz
      · rintro ⟨-, p, hp, hpe, hall⟩
        exact absurd (hall m (by simp)) (matches_false_of_absent h halk p hp)
    | some values =>
      simp only [halk, intersect_none]
      obtain ⟨hup, hum⟩ := matcherUnion_spec h m halk
      by_cases hlen : (matcherUnion m values).length = 0
      · rw [if_pos hlen]
        refine ⟨List.Pairwise.nil, ?_⟩
        rw [List.length_eq_zero] at hlen
        constructor
        · intro hz; simp at hz
        · rintro ⟨-, p, hp, hpe, hall⟩
          have hz2 : fp ∈ matcherUnion m values := (hum fp).2 ⟨p, hp, hpe,
            hall m (by simp)⟩
          rw [hlen] at hz2
          simp at hz2
      · rw [if_neg hlen]
        have hacc : ∀ z, z ∈ matcherUnion m values ↔
            ∃ p ∈ series, p.1 = z ∧
              ∀ m' ∈ [m], matchesMetric p.2 m' = true := by
          intro z
          rw [hum z]
          constructor
          · rintro ⟨p, hp, hpe, hmt⟩
            refine ⟨p, hp, hpe, fun m' hm' => ?_⟩
            rcases List.mem_singleton.1 hm' with rfl
            exact hmt
          · rintro ⟨p, hp, hpe, hall⟩
            exact ⟨p, hp, hpe, hall m (by simp)⟩
        obtain ⟨hlp, hlm⟩ := lookupLoop_spec h ms [m]
          (matcherUnion m values) hup hacc
        refine ⟨hlp, ?_⟩
        rw [hlm fp, List.singleton_append]
        constructor
        · intro hx
          exact ⟨by simp, hx⟩
        · rintro ⟨-, hx⟩
          exact hx

/-- C5, witness: the lookup theorem applied to a concrete two-series
index with a single concrete matcher. -/
theorem C5_witness :
    ((indexLookup [("job", [("a", [1]), ("b", [2])])]
        [⟨"job", fun v => v == "a"⟩]).Pairwise (· < ·) ∧
      (1 ∈ indexLookup [("job", [("a", [1]), ("b", [2])])]
          [⟨"job", fun v => v == "a"⟩] ↔
        ([(⟨"job", fun v => v == "a"⟩ : LabelMatcher)] ≠ []) ∧
        ∃ p ∈ [((1 : Fingerprint), [("job", "a")]),
            ((2 : Fingerprint), [("job", "b")])], p.1 = 1 ∧
          ∀ m ∈ [(⟨"job", fun v => v == "a"⟩ : LabelMatcher)],
            matchesMetric p.2 m = true)) :=
  C5_lookup_correct [("job", [("a", [1]), ("b", [2])])]
    [(1, [("job", "a")]), (2, [("job", "b")])]
    [⟨"job", fun v => v == "a"⟩] 1
    ⟨by decide, by decide, by decide, by decide, by decide, by decide⟩

/-! ### Counter-vector lemmas -/

theorem getCounterVec_inc (c : List (String × Nat)) (r : String) :
    getCounterVec (incCounterVec c r) r = getCounterVec c r + 1 := by
  unfold getCounterVec incCounterVec
  rw [alookup_aput, if_pos rfl, Option.getD_some]

theorem getCounterVec_inc_ne (c : List (String × Nat)) (r r' : String)
    (h : r' ≠ r) :
    getCounterVec (incCounterVec c r) r' = getCounterVec c r' := by
  unfold getCounterVec incCounterVec
  rw [alookup_aput, if_neg h]

/-! ### The append decision ladder -/

/-- `Ingester.append`, reduced for a running ingester and a series already
present in the map: the source's duplicate / out-of-order / add ladder. -/
theorem append_found_eq (fpOf : Metric → Fingerprint) (st : IngState)
    (sample : Sample) (series : MemorySeries)
    (hrun : st.stopped = false)
    (hmem : alookup st.userState.fpToSeries
        (fpOf (stripEmptyLabels sample.metric)) = some series) :
    append fpOf st sample =
      if sample.timestamp = series.lastTime then
        if sample.timestamp = series.lastTime ∧
            series.lastSampleValueSet = true ∧
            sample.value = series.lastSampleValue then (st, none)
        else
          ({ st with
              counters :=
                { st.counters with
                  discardedSamples :=
                    incCounterVec st.counters.discardedSamples
                      duplicateSample } },
            some AppendError.duplicateSampleForTimestamp)
      else if sample.timestamp < series.lastTime then
        ({ st with
            counters :=
              { st.counters with
                discardedSamples :=
                  incCounterVec st.counters.discardedSamples
                    outOfOrderTimestamp } },
          some AppendError.outOfOrderSample)
      else
        ({ st with
            userState :=
              { st.userState with
                fpToSeries :=
                  aput st.userState.fpToSeries
                    (fpOf (stripEmptyLabels sample.metric))
                    (seriesAdd series sample.timestamp sample.value) }
            counters :=
              { st.counters with
                memoryChunks :=
                  st.counters.memoryChunks +
                    (((seriesAdd series sample.timestamp
                          sample.value).chunkDescs.length : Int) -
                      (series.chunkDescs.length : Int))
                ingestedSamples := st.counters.ingestedSamples + 1 } },
          none) := by
  obtain ⟨stopped, userState, counters⟩ := st
  subst hrun
  simp [append, getOrCreateSeries, hmem]

/-! ### Claim C6 -/

/-- C6: for an append at `ts = lastTime`: when the last sample value is set
and equal, append succeeds without touching `ingested_samples_total`;
otherwise it returns `DuplicateSampleForTimestamp` and increments
`out_of_order_samples_total{reason=duplicate_sample_for_timestamp}`. -/
theorem C6_duplicate_timestamp (fpOf : Metric → Fingerprint) (st : IngState)
    (sample : Sample) (series : MemorySeries)
    (hrun : st.stopped = false)
    (hmem : alookup st.userState.fpToSeries
        (fpOf (stripEmptyLabels sample.metric)) = some series)
    (hts : sample.timestamp = series.lastTime) :
    (series.lastSampleValueSet = true ∧
        sample.value = series.lastSampleValue →
      (append fpOf st sample).2 = none ∧
      (append fpOf st sample).1.counters.ingestedSamples =
        st.counters.ingestedSamples) ∧
    (¬ (series.lastSampleValueSet = true ∧
        sample.value = series.lastSampleValue) →
      (append fpOf st sample).2 =
        some AppendError.duplicateSampleForTimestamp ∧
      getCounterVec (append fpOf st sample).1.counters.discardedSamples
          duplicateSample =
        getCounterVec st.counters.discardedSamples duplicateSample + 1) := by
  rw [append_found_eq fpOf st sample series hrun hmem]
  constructor
  · rintro ⟨h1, h2⟩
    rw [if_pos hts, if_pos ⟨hts, h1, h2⟩]
    exact ⟨rfl, rfl⟩
  · intro hn
    rw [if_pos hts, if_neg (fun hc => hn ⟨hc.2.1, hc.2.2⟩)]
    exact ⟨rfl, getCounterVec_inc _ _⟩

/-- A concrete one-sample chunk (`ts = 100`, `v = 1`). -/
def chunk100 : ChunkDesc where
  c := { pairs := [(100, 1)] }
  chunkFirstTime := 100
  chunkLastTime := Earliest

/-- A concrete one-chunk series (one sample at `ts = 100`, `v = 1`). -/
def serX : MemorySeries where
  metric := [("job", "x")]
  chunkDescs := [chunk100]
  lastTime := 100
  lastSampleValue := 1
  lastSampleValueSet := true
  headChunkClosed := false
  headChunkUsedByIterator := false

/-- A concrete running ingester state holding `serX` under fingerprint 7. -/
def stX : IngState where
  stopped := false
  userState := { fpToSeries := [(7, serX)], index := [("job", [("x", [7])])] }
  counters :=
    { ingestedSamples := 3, discardedSamples := [], chunkStoreFailures := 0,
      memoryChunks := 1 }

/-- The idempotent re-append of `serX`'s last sample. -/
def sampleDup : Sample where
  metric := [("job", "x")]
  timestamp := 100
  value := 1

/-- A conflicting value at `serX`'s last timestamp. -/
def sampleConflict : Sample where
  metric := [("job", "x")]
  timestamp := 100
  value := 2

/-- A sample older than `serX`'s last timestamp. -/
def sampleOld : Sample where
  metric := [("job", "x")]
  timestamp := 50
  value := 2

/-- A sample newer than `serX`'s last timestamp. -/
def sampleNew : Sample where
  metric := [("job", "x")]
  timestamp := 300
  value := 3

/-- C6, witness: the idempotent duplicate `(ts=100, v=1)` re-appended to
`serX` succeeds and leaves `ingested_samples_total` at 3. -/
theorem C6_witness :
    (append (fun _ => 7) stX sampleDup).2 = none ∧
    (append (fun _ => 7) stX sampleDup).1.counters.ingestedSamples =
      stX.counters.ingestedSamples :=
  (C6_duplicate_timestamp (fun _ => 7) stX sampleDup serX
      (by decide) (by decide) (by decide)).1 ⟨by decide, by decide⟩

/-! ### Claim C7 -/

/-- C7: an append with `ts < lastTime` returns `SampleOutOfOrder` and
increments `out_of_order_samples_total{reason=sample_out_of_order}`; and
the batched `Append` stops at the first failing sample, returning its error
with the state exactly as that failing append left it (earlier appends are
kept, later samples unprocessed). -/
theorem C7_out_of_order (fpOf : Metric → Fingerprint) (st : IngState)
    (sample : Sample) (series : MemorySeries)
    (hrun : st.stopped = false)
    (hmem : alookup st.userState.fpToSeries
        (fpOf (stripEmptyLabels sample.metric)) = some series)
    (hts : sample.timestamp < series.lastTime) :
    (append fpOf st sample).2 = some AppendError.outOfOrderSample ∧
    getCounterVec (append fpOf st sample).1.counters.discardedSamples
        outOfOrderTimestamp =
      getCounterVec st.counters.discardedSamples outOfOrderTimestamp + 1 ∧
    ∀ (st0 st1 : IngState) (s0 : Sample) (e : AppendError)
      (rest : List Sample), append fpOf st0 s0 = (st1, some e) →
      Append fpOf st0 (s0 :: rest) = (st1, some e) := by
  have hbatch : ∀ (st0 st1 : IngState) (s0 : Sample) (e : AppendError)
      (rest : List Sample), append fpOf st0 s0 = (st1, some e) →
      Append fpOf st0 (s0 :: rest) = (st1, some e) := by
    intro st0 st1 s0 e rest h
    simp only [Append]
    rw [h]
  rw [append_found_eq fpOf st sample series hrun hmem]
  rw [if_neg (ne_of_lt hts), if_pos hts]
  exact ⟨rfl, getCounterVec_inc _ _, hbatch⟩

/-- C7, witness: appending `(ts=50)` to `serX` (whose `lastTime = 100`)
fails out-of-order, bumps the counter, and aborts a two-sample batch at
the first sample. -/
theorem C7_witness :
    ((append (fun _ => 7) stX sampleOld).2 =
        some AppendError.outOfOrderSample ∧
      getCounterVec
          (append (fun _ => 7) stX sampleOld).1.counters.discardedSamples
          outOfOrderTimestamp =
        getCounterVec stX.counters.discardedSamples outOfOrderTimestamp
          + 1) ∧
    Append (fun _ => 7) stX [sampleOld, sampleNew] =
      ((append (fun _ => 7) stX sampleOld).1,
        some AppendError.outOfOrderSample) :=
  ⟨⟨(C7_out_of_order (fun _ => 7) stX sampleOld serX (by decide) (by decide)
        (by decide)).1,
    (C7_out_of_order (fun _ => 7) stX sampleOld serX (by decide) (by decide)
        (by decide)).2.1⟩,
    (C7_out_of_order (fun _ => 7) stX sampleOld serX (by decide) (by decide)
        (by decide)).2.2 stX ((append (fun _ => 7) stX sampleOld).1)
      sampleOld AppendError.outOfOrderSample [sampleNew] (by decide)⟩

/-! ### Claim C10 -/

/-- C10: whenever `append` fails with `DuplicateSampleForTimestamp` or
`SampleOutOfOrder`, the tenant state (series map — hence the series'
`chunkDescs`, `lastTime`, `lastSampleValue`, `lastSampleValueSet`,
`headChunkClosed` — and index) is unchanged, `ingested_samples_total`,
`memory_chunks` and `chunk_store_failures_total` are unchanged, and only
the matching discard-reason counter is incremented. -/
theorem C10_error_frame (fpOf : Metric → Fingerprint) (st : IngState)
    (sample : Sample) (series : MemorySeries)
    (hrun : st.stopped = false)
    (hmem : alookup st.userState.fpToSeries
        (fpOf (stripEmptyLabels sample.metric)) = some series) :
    ((append fpOf st sample).2 =
        some AppendError.duplicateSampleForTimestamp →
      (append fpOf st sample).1.userState = st.userState ∧
      (append fpOf st sample).1.counters.ingestedSamples =
        st.counters.ingestedSamples ∧
      (append fpOf st sample).1.counters.memoryChunks =
        st.counters.memoryChunks ∧
      (append fpOf st sample).1.counters.chunkStoreFailures =
        st.counters.chunkStoreFailures ∧
      getCounterVec (append fpOf st sample).1.counters.discardedSamples
          duplicateSample =
        getCounterVec st.counters.discardedSamples duplicateSample + 1 ∧
      getCounterVec (append fpOf st sample).1.counters.discardedSamples
          outOfOrderTimestamp =
        getCounterVec st.counters.discardedSamples outOfOrderTimestamp) ∧
    ((append fpOf st sample).2 = some AppendError.outOfOrderSample →
      (append fpOf st sample).1.userState = st.userState ∧
      (append fpOf st sample).1.counters.ingestedSamples =
        st.counters.ingestedSamples ∧
      (append fpOf st sample).1.counters.memoryChunks =
        st.counters.memoryChunks ∧
      (append fpOf st sample).1.counters.chunkStoreFailures =
        st.counters.chunkStoreFailures ∧
      getCounterVec (append fpOf st sample).1.counters.discardedSamples
          outOfOrderTimestamp =
        getCounterVec st.counters.discardedSamples outOfOrderTimestamp + 1 ∧
      getCounterVec (append fpOf st sample).1.counters.discardedSamples
          duplicateSample =
        getCounterVec st.counters.discardedSamples duplicateSample) := by
  rw [append_found_eq fpOf st sample series hrun hmem]
  by_cases h1 : sample.timestamp = series.lastTime
  · rw [if_pos h1]
    by_cases h2 : sample.timestamp = series.lastTime ∧
        series.lastSampleValueSet = true ∧
        sample.value = series.lastSampleValue
    · rw [if_pos h2]
      constructor
      · intro hc; simp at hc
      · intro hc; simp at hc
    · rw [if_neg h2]
      constructor
      · intro _
        exact ⟨rfl, rfl, rfl, rfl, getCounterVec_inc _ _,
          getCounterVec_inc_ne _ _ _ (by decide)⟩
      · intro hc
        simp at hc
  · rw [if_neg h1]
    by_cases h3 : sample.timestamp < series.lastTime
    · rw [if_pos h3]
      constructor
      · intro hc
        simp at hc
      · intro _
        exact ⟨rfl, rfl, rfl, rfl, getCounterVec_inc _ _,
          getCounterVec_inc_ne _ _ _ (by decide)⟩
    · rw [if_neg h3]
      constructor
      · intro hc; simp at hc
      · intro hc; simp at hc

/-- C10, witness: the conflicting duplicate `(ts=100, v=2)` against `serX`
leaves the tenant state and the other counters unchanged. -/
theorem C10_witness :
    (append (fun _ => 7) stX sampleConflict).1.userState = stX.userState ∧
    (append (fun _ => 7) stX sampleConflict).1.counters.ingestedSamples =
      stX.counters.ingestedSamples ∧
    (append (fun _ => 7) stX sampleConflict).1.counters.memoryChunks =
      stX.counters.memoryChunks ∧
    (append (fun _ => 7) stX sampleConflict).1.counters.chunkStoreFailures =
      stX.counters.chunkStoreFailures ∧
    getCounterVec
        (append (fun _ => 7) stX sampleConflict).1.counters.discardedSamples
        duplicateSample =
      getCounterVec stX.counters.discardedSamples duplicateSample + 1 ∧
    getCounterVec
        (append (fun _ => 7) stX sampleConflict).1.counters.discardedSamples
        outOfOrderTimestamp =
      getCounterVec stX.counters.discardedSamples outOfOrderTimestamp :=
  (C10_error_frame (fun _ => 7) stX sampleConflict serX
      (by decide) (by decide)).1 (by decide)

/-! ### Claim C3 -/

theorem samplesForRange_nil (s : MemorySeries) (hc : s.chunkDescs = [])
    (f t : Int) : samplesForRange s f t = none := by
  simp [samplesForRange, hc, getI]

/-- C3: `getOrCreateSeries` registers a brand-new series with an empty
`chunkDescs` list (created from nil chunk descriptors) in the series map;
on such a series `samplesForRange` reaches the `chunkDescs[len-1]` read
with `len = 0` — an out-of-bounds access (`none` in this embedding, an
index panic in the source) — for every query range, instead of returning
an empty result. -/
theorem C3_empty_series_out_of_bounds (fpOf : Metric → Fingerprint)
    (u : UserState) (metric : Metric) (f t : Int)
    (hnew : alookup u.fpToSeries (fpOf metric) = none) :
    (getOrCreateSeries fpOf u metric).2.1.chunkDescs = [] ∧
    alookup (getOrCreateSeries fpOf u metric).2.2.fpToSeries
        (getOrCreateSeries fpOf u metric).1 =
      some (getOrCreateSeries fpOf u metric).2.1 ∧
    samplesForRange (getOrCreateSeries fpOf u metric).2.1 f t = none := by
  simp only [getOrCreateSeries]
  rw [hnew]
  exact ⟨rfl,
    (alookup_aput u.fpToSeries (fpOf metric) (newMemorySeries metric)
      (fpOf metric)).trans (if_pos rfl),
    samplesForRange_nil _ rfl f t⟩

/-- C3, witness: a concrete fresh tenant, metric and range. -/
theorem C3_witness :
    (getOrCreateSeries (fun _ => 7) { fpToSeries := [], index := [] }
        [("job", "x")]).2.1.chunkDescs = [] ∧
    alookup (getOrCreateSeries (fun _ => 7)
          { fpToSeries := [], index := [] }
          [("job", "x")]).2.2.fpToSeries
        (getOrCreateSeries (fun _ => 7) { fpToSeries := [], index := [] }
          [("job", "x")]).1 =
      some (getOrCreateSeries (fun _ => 7) { fpToSeries := [], index := [] }
          [("job", "x")]).2.1 ∧
    samplesForRange (getOrCreateSeries (fun _ => 7)
        { fpToSeries := [], index := [] } [("job", "x")]).2.1 100 200 =
      none :=
  C3_empty_series_out_of_bounds (fun _ => 7) { fpToSeries := [], index := [] }
    [("job", "x")] 100 200 (by decide)

/-! ### Flush lemmas -/

theorem maybePopulateLastTime_c (cd : ChunkDesc) :
    (maybePopulateLastTime cd).c = cd.c := by
  unfold maybePopulateLastTime
  split <;> rfl

theorem closeHead_chunkData (s : MemorySeries) :
    (closeHead s).chunkDescs.map (fun cd => cd.c) =
      s.chunkDescs.map (fun cd => cd.c) := by
  cases hl : s.chunkDescs.getLast? with
  | none => simp [closeHead, hl]
  | some head =>
    have hdecomp : s.chunkDescs.dropLast ++ [head] = s.chunkDescs :=
      List.dropLast_append_getLast? head (by simp [hl])
    simp only [closeHead, hl]
    conv_rhs => rw [← hdecomp]
    simp [maybePopulateLastTime_c]

theorem closeHead_length (s : MemorySeries) :
    (closeHead s).chunkDescs.length = s.chunkDescs.length := by
  have h := congrArg List.length (closeHead_chunkData s)
  simpa using h

theorem flushCloseStep_chunkData (maxChunkAge now : Int) (immediate : Bool)
    (s : MemorySeries) :
    (flushCloseStep maxChunkAge now immediate s).chunkDescs.map
        (fun cd => cd.c) =
      s.chunkDescs.map (fun cd => cd.c) := by
  unfold flushCloseStep
  split
  · exact closeHead_chunkData s
  · rfl

theorem flushCloseStep_length (maxChunkAge now : Int) (immediate : Bool)
    (s : MemorySeries) :
    (flushCloseStep maxChunkAge now immediate s).chunkDescs.length =
      s.chunkDescs.length := by
  unfold flushCloseStep
  split
  · exact closeHead_length s
  · rfl

/-! ### Claim C8 -/

/-- C8: when shipping a series' batch fails (a chunk marshal error or a
failed `chunkStore.Put`), `flushSeries` adds the batch size to
`chunk_store_failures_total` and returns the error, and nothing is removed:
the series stays in the series map holding the same chunks (the head merely
force-closed, with its cached last time populated — the same chunk data),
the inverted index is untouched and the `memory_chunks` gauge unchanged, so
the same chunks are retried on the next flush tick. -/
theorem C8_flush_failure (marshalOk : ChunkData → Bool)
    (put : List WireChunk → Bool) (maxChunkAge now : Int) (st : IngState)
    (fp : Fingerprint) (series : MemorySeries) (immediate : Bool)
    (e : FlushError)
    (hchunks :
      ¬ (chunksToFlush (flushCloseStep maxChunkAge now immediate
          series)).length = 0)
    (herr : flushChunks marshalOk put fp
        (flushCloseStep maxChunkAge now immediate series).metric
        (chunksToFlush (flushCloseStep maxChunkAge now immediate series)) =
      some e) :
    (flushSeries marshalOk put maxChunkAge now st fp series immediate).2 =
      some e ∧
    alookup (flushSeries marshalOk put maxChunkAge now st fp series
        immediate).1.userState.fpToSeries fp =
      some (flushCloseStep maxChunkAge now immediate series) ∧
    (flushCloseStep maxChunkAge now immediate series).chunkDescs.length =
      series.chunkDescs.length ∧
    (flushCloseStep maxChunkAge now immediate series).chunkDescs.map
        (fun cd => cd.c) =
      series.chunkDescs.map (fun cd => cd.c) ∧
    (flushSeries marshalOk put maxChunkAge now st fp series
        immediate).1.userState.index = st.userState.index ∧
    (flushSeries marshalOk put maxChunkAge now st fp series
        immediate).1.counters.chunkStoreFailures =
      st.counters.chunkStoreFailures +
        (chunksToFlush (flushCloseStep maxChunkAge now immediate
          series)).length ∧
    (flushSeries marshalOk put maxChunkAge now st fp series
        immediate).1.counters.memoryChunks = st.counters.memoryChunks := by
  simp only [flushSeries]
  rw [if_neg hchunks, herr]
  exact ⟨rfl,
    (alookup_aput st.userState.fpToSeries fp
      (flushCloseStep maxChunkAge now immediate series) fp).trans
      (if_pos rfl),
    flushCloseStep_length maxChunkAge now immediate series,
    flushCloseStep_chunkData maxChunkAge now immediate series,
    rfl, rfl, rfl⟩

/-- The always-succeeding embedded chunk codec. -/
def marshalAlwaysOk : ChunkData → Bool := fun _ => true

/-- An embedded chunk store whose `Put` always fails. -/
def putAlwaysFails : List WireChunk → Bool := fun _ => false

/-- An embedded chunk store whose `Put` always succeeds. -/
def putAlwaysOk : List WireChunk → Bool := fun _ => true

/-- C8, witness: an immediate flush of `serX` against a store whose `Put`
fails leaves everything in place and counts one failure. -/
theorem C8_witness :
    (flushSeries marshalAlwaysOk putAlwaysFails 600000 1000000 stX 7 serX
        true).2 = some FlushError.putFailed ∧
    alookup (flushSeries marshalAlwaysOk putAlwaysFails 600000 1000000 stX 7
        serX true).1.userState.fpToSeries 7 =
      some (flushCloseStep 600000 1000000 true serX) ∧
    (flushCloseStep 600000 1000000 true serX).chunkDescs.length =
      serX.chunkDescs.length ∧
    (flushCloseStep 600000 1000000 true serX).chunkDescs.map
        (fun cd => cd.c) =
      serX.chunkDescs.map (fun cd => cd.c) ∧
    (flushSeries marshalAlwaysOk putAlwaysFails 600000 1000000 stX 7 serX
        true).1.userState.index = stX.userState.index ∧
    (flushSeries marshalAlwaysOk putAlwaysFails 600000 1000000 stX 7 serX
        true).1.counters.chunkStoreFailures =
      stX.counters.chunkStoreFailures +
        (chunksToFlush (flushCloseStep 600000 1000000 true serX)).length ∧
    (flushSeries marshalAlwaysOk putAlwaysFails 600000 1000000 stX 7 serX
        true).1.counters.memoryChunks = stX.counters.memoryChunks :=
  C8_flush_failure marshalAlwaysOk putAlwaysFails 600000 1000000 stX 7 serX
    true FlushError.putFailed (by decide) (by decide)

/-! ### Claim C1 -/

/-- C1: the flush-success path of `flushSeries` assigns
`series.chunkDescs = series.chunkDescs[len(chunks)-1:]`, retaining the LAST
shipped chunk instead of dropping all shipped chunks.  Flushing `serX`
(one closed chunk, shipped successfully) therefore returns no error but
leaves the series in the series map still holding 1 chunk, the inverted
index still holding its fingerprint — so the series map never empties (and
`memory_chunks` drops to 0 even though a chunk remains in memory). -/
theorem C1_flush_retains_last_shipped_chunk :
    (flushSeries marshalAlwaysOk putAlwaysOk 600000 1000000 stX 7 serX
        true).2 = none ∧
    (alookup (flushSeries marshalAlwaysOk putAlwaysOk 600000 1000000 stX 7
        serX true).1.userState.fpToSeries 7).map
        (fun s => s.chunkDescs.length) = some 1 ∧
    (flushSeries marshalAlwaysOk putAlwaysOk 600000 1000000 stX 7 serX
        true).1.userState.index = [("job", [("x", [7])])] ∧
    (flushSeries marshalAlwaysOk putAlwaysOk 600000 1000000 stX 7 serX
        true).1.counters.memoryChunks = 0 := by
  decide

end Frankenstein
